import Mathlib

set_option maxHeartbeats 1000000

namespace FileSystemPro

/-! Shallow embedding of `filesystem/watcher/__init__.py` from FileSystemPro.

Python dictionaries are modelled as association lists kept in insertion order
(Python dicts iterate in insertion order and never hold duplicate keys).
`os.stat` is modelled as a function returning `Option StatResult`, where `none`
models a raised `OSError`.  The directory hierarchy walked by `os.walk` is
modelled as a first-order `Forest` value.  `st_mtime` and `st_size` only ever
flow through equality comparisons in the watcher, so they are modelled as
`Int`; `datetime.now()` values are opaque tags modelled as `Nat`. -/

/-- A value stored in one of the watcher's Python dicts. -/
inductive Value where
  | str (s : String)
  | int (n : Int)
  | time (t : Nat)
  deriving DecidableEq

/-- A Python dict with string keys, in insertion order. -/
abbrev Dict := List (String × Value)

/-- A snapshot: the dict produced by `Watcher.__get_state__`, mapping absolute
file paths to metadata dicts. -/
abbrev Snapshot := List (String × Dict)

/-- Python dict assignment `d[k] = v`: replace the value of an existing key in
place, otherwise append the new key at the end (insertion-order semantics). -/
def assocSet {β : Type} : List (String × β) → String → β → List (String × β)
  | [], k, v => [(k, v)]
  | (k0, v0) :: rest, k, v =>
      if k0 = k then (k, v) :: rest else (k0, v0) :: assocSet rest k v

/-- Python dict read `d[k]`; `none` models a raised `KeyError`. -/
def dictGet? (d : Dict) (k : String) : Option Value :=
  List.lookup k d

/-- Python substring test `pat in s`. -/
def pyIn (pat s : String) : Bool :=
  (List.range (s.data.length + 1)).any fun i => pat.data.isPrefixOf (s.data.drop i)

/-- `os.path.basename` (POSIX): the characters after the last separator. -/
def pyBasename (p : String) : String :=
  ⟨p.data.foldl (fun acc c => if c = '/' then [] else acc ++ [c]) []⟩

/-- Worker for Python `s.replace(pat, "")`: scan left to right; whenever `pat`
matches, drop it and continue after the match, otherwise keep one character.
The fuel argument (instantiated with the length of the string) only makes the
recursion structural; a step always consumes at least one character. -/
def pyRemoveAux (pat : List Char) : Nat → List Char → List Char
  | _, [] => []
  | 0, s => s
  | fuel + 1, c :: rest =>
      if 0 < pat.length && pat.isPrefixOf (c :: rest) then
        pyRemoveAux pat fuel (rest.drop (pat.length - 1))
      else c :: pyRemoveAux pat fuel rest

/-- Python `s.replace(pat, "")`: remove every (non-overlapping, leftmost-first)
occurrence of `pat` from `s`. -/
def pyReplaceEmpty (s pat : String) : String :=
  ⟨pyRemoveAux pat.data s.data.length s.data⟩

/-- Python `s.count(c)` for a single character. -/
def pyCount (s : String) (c : Char) : Nat :=
  s.data.count c

/-- Index of the last occurrence of `c` in `l` (Python `str.rfind`, success
case). -/
def lastIdx (l : List Char) (c : Char) : Option Nat :=
  ((List.range l.length).filter fun i => decide (l[i]? = some c)).getLast?

/-- The extension part returned by `os.path.splitext` (POSIX): the text from
the last dot on, provided that dot comes after the last separator and some
character strictly between the last separator and that dot is not itself a
dot (so names consisting only of leading dots have no extension). -/
def splitextExt (p : String) : String :=
  let l := p.data
  let sepIdx : Int := match lastIdx l '/' with | some i => (i : Int) | none => -1
  let dotIdx : Int := match lastIdx l '.' with | some i => (i : Int) | none => -1
  if sepIdx < dotIdx ∧
      (∃ i ∈ List.range l.length,
        sepIdx < (i : Int) ∧ (i : Int) < dotIdx ∧ l[i]? ≠ some '.') then
    ⟨l.drop dotIdx.toNat⟩
  else ""

/-- Python `s.lstrip(".")`. -/
def lstripDot (s : String) : String :=
  ⟨s.data.dropWhile (fun c => c == '.')⟩

/-- The extension the watcher compares against `file_extensions`:
`_, ext = os.path.splitext(abspath); ext = ext.lstrip('.')`. -/
def extOf (abspath : String) : String :=
  lstripDot (splitextExt abspath)

/-- The per-`Watcher` filter configuration (from `Watcher.__init__`). -/
structure WatchConfig where
  ignore_patterns : List String
  file_extensions : List String
  max_depth : Option Nat

/-- Result of a successful `os.stat` call, restricted to the fields the
watcher reads. -/
structure StatResult where
  st_mtime : Int
  st_size : Int
  deriving DecidableEq

/-- `Watcher.__get_metadata__`: `os.stat` the path and build the metadata dict
`{"abspath": ..., "modified": ..., "size": ...}`.  There is no exception
handler, so a failing `os.stat` (modelled by `none`) propagates as an error. -/
def getMetadata (stat : String → Option StatResult) (abspath : String) :
    Except Unit Dict :=
  match stat abspath with
  | some st =>
      .ok [("abspath", .str abspath), ("modified", .int st.st_mtime),
           ("size", .int st.st_size)]
  | none => .error ()

/-- `Watcher.__should_watch__`: reject when some ignore pattern is a substring
of the basename; otherwise, when `file_extensions` is non-empty, reject unless
the `splitext`-extension (leading dot stripped) is listed. -/
def shouldWatch (cfg : WatchConfig) (abspath : String) : Bool :=
  let basename := pyBasename abspath
  if cfg.ignore_patterns.any (fun pat => pyIn pat basename) then false
  else
    let ext := extOf abspath
    if !cfg.file_extensions.isEmpty && !cfg.file_extensions.contains ext then false
    else true

/-- A forest of directories: `Forest.dir name files children rest` is a
directory called `name` holding `files` and the sub-directories `children`,
followed by its sibling directories `rest`.  `os.walk` enumerates such a
structure top-down in this order. -/
inductive Forest where
  | nil
  | dir (name : String) (files : List String) (children rest : Forest)

/-- `os.path.join` for the shapes the watcher produces (directory path without
trailing separator, relative name). -/
def pathJoin (a b : String) : String := a ++ "/" ++ b

/-- The depth computed by `__get_state__`:
`depth = root_dir.replace(path, '').count(os.sep)`.  Note this removes every
occurrence of the root string, not only the leading one. -/
def walkDepth (rootPath curPath : String) : Nat :=
  pyCount (pyReplaceEmpty curPath rootPath) '/'

/-- The pruning test `self.max_depth is not None and depth > self.max_depth`. -/
def depthExceeded (cfg : WatchConfig) (depth : Nat) : Bool :=
  match cfg.max_depth with
  | some m => decide (m < depth)
  | none => false

/-- The `for filename in files` body of `__get_state__`: for each candidate
passing `__should_watch__`, stat it and store the metadata under its absolute
path.  A failing stat raises out of the loop. -/
def walkFiles (cfg : WatchConfig) (stat : String → Option StatResult)
    (dirPath : String) : List String → Snapshot → Except Unit Snapshot
  | [], acc => .ok acc
  | fn :: rest, acc =>
      let abspath := pathJoin dirPath fn
      if shouldWatch cfg abspath then
        match getMetadata stat abspath with
        | .error e => .error e
        | .ok md => walkFiles cfg stat dirPath rest (assocSet acc abspath md)
      else walkFiles cfg stat dirPath rest acc

/-- The `os.walk` loop of `__get_state__` over the sub-directories of the
root: a directory whose computed depth exceeds `max_depth` contributes neither
its files nor its descendants (`dirs[:] = []; continue`); otherwise its files
are processed before its children (top-down walk), then its siblings. -/
def walkForest (cfg : WatchConfig) (stat : String → Option StatResult)
    (rootPath parentPath : String) : Forest → Snapshot → Except Unit Snapshot
  | .nil, acc => .ok acc
  | .dir name files children rest, acc =>
      let curPath := pathJoin parentPath name
      if depthExceeded cfg (walkDepth rootPath curPath) then
        walkForest cfg stat rootPath parentPath rest acc
      else
        match walkFiles cfg stat curPath files acc with
        | .error e => .error e
        | .ok acc1 =>
            match walkForest cfg stat rootPath curPath children acc1 with
            | .error e => .error e
            | .ok acc2 => walkForest cfg stat rootPath parentPath rest acc2

/-- `Watcher.__get_state__` on a root directory holding `rootFiles` and the
sub-directory forest `children`.  The root itself is the first directory
yielded by `os.walk`. -/
def getState (cfg : WatchConfig) (stat : String → Option StatResult)
    (path : String) (rootFiles : List String) (children : Forest) :
    Except Unit Snapshot :=
  if depthExceeded cfg (walkDepth path path) then .ok []
  else
    match walkFiles cfg stat path rootFiles [] with
    | .error e => .error e
    | .ok acc => walkForest cfg stat path path children acc

/-- `changed_paths` in `Watcher.diff`: keys of the current snapshot that are
also saved keys and whose `"modified"` entry differs. -/
def updatedPaths (saved current : Snapshot) : List String :=
  current.filterMap fun kv =>
    match List.lookup kv.1 saved with
    | some v0 =>
        if dictGet? kv.2 "modified" ≠ dictGet? v0 "modified" then some kv.1
        else none
    | none => none

/-- The key list of a snapshot. -/
def snapKeys (s : Snapshot) : List String := s.map Prod.fst

/-- `created = current_set - stored_set` in `Watcher.diff` (as a list of the
member paths; Python set iteration order is unspecified, so the embedding
fixes current-snapshot insertion order). -/
def createdPaths (saved current : Snapshot) : List String :=
  (snapKeys current).filter fun k => !(snapKeys saved).contains k

/-- `removed = stored_set - current_set` in `Watcher.diff`. -/
def removedPaths (saved current : Snapshot) : List String :=
  (snapKeys saved).filter fun k => !(snapKeys current).contains k

/-- The per-root `results` list of `Watcher.diff`: the current record tagged
`"updated"` for each changed path, the current record tagged `"created"` for
each created path, the saved record tagged `"removed"` for each removed
path — in that order. -/
def diffRoot (saved current : Snapshot) : List Dict :=
  ((updatedPaths saved current).filterMap fun x =>
      (List.lookup x current).map fun d => assocSet d "change" (.str "updated")) ++
  ((createdPaths saved current).filterMap fun x =>
      (List.lookup x current).map fun d => assocSet d "change" (.str "created")) ++
  ((removedPaths saved current).filterMap fun x =>
      (List.lookup x saved).map fun d => assocSet d "change" (.str "removed"))

/-- `all_changes` in `Watcher.diff`: the per-root results concatenated in root
order, given the (saved, current) snapshot pair of each root. -/
def diffAll (states : List (Snapshot × Snapshot)) : List Dict :=
  (states.map fun p => diffRoot p.1 p.2).flatten

/-- `Watcher.__monitor_loop__` puts every dict returned by `diff()` on
`event_queue` unchanged, and passes the same dict to per-kind and catch-all
callbacks. -/
def queuedEvents (changes : List Dict) : List Dict := changes

/-- The history-update loop at the end of `Watcher.diff`: append a copy of
each change with the extra `"timestamp"` key set to this call's
`datetime.now()` value, popping the front entry whenever the length exceeds
`history_size`. -/
def pushHistory (history_size : Nat) (hist : List Dict) (changes : List Dict)
    (now : Nat) : List Dict :=
  changes.foldl
    (fun h change =>
      let h' := h ++ [assocSet change "timestamp" (.time now)]
      if history_size < h'.length then h'.tail else h')
    hist

/-- One full `Watcher.diff` call: compute `all_changes` from the per-root
snapshot pairs, update the history, and return the changes (without the
timestamp tag). -/
def diffCall (history_size : Nat) (states : List (Snapshot × Snapshot))
    (hist : List Dict) (now : Nat) : List Dict × List Dict :=
  let all_changes := diffAll states
  (all_changes, pushHistory history_size hist all_changes now)

/-- `Watcher.get_stats`: per-kind counts over the retained history. -/
def getStats (hist : List Dict) : List (String × Nat) :=
  if hist.isEmpty then [("created", 0), ("updated", 0), ("removed", 0)]
  else
    ["created", "updated", "removed"].map fun t =>
      (t, hist.countP fun c => decide (dictGet? c "change" = some (.str t)))

/-- The sum of the counts returned by `get_stats`. -/
def statsSum (hist : List Dict) : Nat :=
  ((getStats hist).map Prod.snd).sum

/-- The reads performed by the standalone `get_changes` on a dequeued change:
`change['timestamp']`, `change['abspath']`, `change['change']`; `none` models
the `KeyError` raised when one of them is absent. -/
def getChangesLine (change : Dict) : Option (Value × Value × Value) :=
  match dictGet? change "timestamp", dictGet? change "abspath",
      dictGet? change "change" with
  | some t, some a, some c => some (t, a, c)
  | _, _, _ => none

/-- The history after a sequence of diff cycles starting from the empty
history; each cycle contributes its change list and its `now` tag. -/
def runHistory (history_size : Nat) (cycles : List (List Dict × Nat)) :
    List Dict :=
  cycles.foldl (fun h cyc => pushHistory history_size h cyc.1 cyc.2) []

/-- A metadata dict as `__get_metadata__` actually builds it. -/
def WFRecord (d : Dict) : Prop :=
  ∃ a m s, d = [("abspath", .str a), ("modified", .int m), ("size", .int s)]

/-- A snapshot whose records all have the `__get_metadata__` shape; every
snapshot produced by `__get_state__` is of this form. -/
def WFSnapshot (s : Snapshot) : Prop :=
  ∀ kv ∈ s, WFRecord kv.2

/-- The `"modified"` entry of the record a snapshot holds for a key. -/
def modifiedOf (s : Snapshot) (k : String) : Option Value :=
  (List.lookup k s).bind fun d => dictGet? d "modified"

/-- The extension rule exactly as the specification words it: the text after
the last dot of the base name, without the dot, when the base name contains a
dot at all. -/
def claimExtAfterLastDot (basename : String) : Option String :=
  if basename.data.contains '.' then
    some ⟨basename.data.foldl (fun acc c => if c = '.' then [] else acc ++ [c]) []⟩
  else none

/-! Concrete fixtures used to instantiate the claims. -/

/-- Metadata record as built for path `p` with modify time `m` and size `sz`. -/
def mdRec (p : String) (m sz : Int) : Dict :=
  [("abspath", .str p), ("modified", .int m), ("size", .int sz)]

/-- A stat function that always succeeds with fixed metadata. -/
def statOne : String → Option StatResult := fun _ => some ⟨1, 1⟩

/-- A stat function that fails (raises) exactly for `/r/b.txt`. -/
def statFailB : String → Option StatResult :=
  fun p => if p = "/r/b.txt" then none else some ⟨1, 1⟩

/-- Configuration with no filters. -/
def cfgPlain : WatchConfig := ⟨[], [], none⟩

/-- Configuration with `max_depth = 1` and no other filters. -/
def cfgDepth1 : WatchConfig := ⟨[], [], some 1⟩

/-- Configuration allowing only the `txt` extension. -/
def cfgTxt : WatchConfig := ⟨[], ["txt"], none⟩

/-- The configuration of the specification's filter scenario P4. -/
def cfgP4 : WatchConfig := ⟨[".DS_Store"], ["txt"], none⟩

/-- Directory forest `x/b.txt`, `x/y/`, `x/y/z/deep.txt` under the root. -/
def forest7 : Forest :=
  .dir "x" ["b.txt"] (.dir "y" [] (.dir "z" ["deep.txt"] .nil .nil) .nil) .nil

/-- Directory forest `ab/`, `ab/c/deep.txt`; under root `/a` the directory
name `ab` makes the root string reoccur in the full path `/a/ab`. -/
def forestBad : Forest := .dir "ab" [] (.dir "c" ["deep.txt"] .nil .nil) .nil

/-- Previous snapshot of the one-file update scenario over root `/w`. -/
def savedW : Snapshot := [("/w/a.txt", mdRec "/w/a.txt" 1 5)]

/-- Current snapshot of the one-file update scenario over root `/w`. -/
def currentW : Snapshot := [("/w/a.txt", mdRec "/w/a.txt" 2 5)]

/-- The single event the one-file update scenario produces. -/
def updEventW : Dict := assocSet (mdRec "/w/a.txt" 2 5) "change" (.str "updated")

/-- Scenario C snapshot: one file `old.txt` with modify time 10. -/
def snapC6 : Snapshot := [("old.txt", mdRec "old.txt" 10 5)]

/-! Helper lemmas about the embedded operations. -/

theorem WFRecord_mdRec (p : String) (m sz : Int) : WFRecord (mdRec p m sz) :=
  ⟨p, m, sz, rfl⟩

theorem WF_pairW : ∀ p ∈ [(savedW, currentW)], WFSnapshot p.1 ∧ WFSnapshot p.2 := by
  intro p hp
  rw [List.mem_singleton.mp hp]
  constructor <;>
    · intro kv hkv
      rw [List.mem_singleton.mp hkv]
      exact WFRecord_mdRec _ _ _

theorem lookup_assocSet_self {β : Type} (d : List (String × β)) (k : String) (v : β) :
    List.lookup k (assocSet d k v) = some v := by
  induction d with
  | nil => simp [assocSet, List.lookup]
  | cons kv rest ih =>
    obtain ⟨k0, v0⟩ := kv
    by_cases h : k0 = k
    · simp [assocSet, h, List.lookup]
    · simp only [assocSet, if_neg h, List.lookup]
      have : (k == k0) = false := by
        simp [beq_iff_eq]
        exact fun he => h he.symm
      simp [this, ih]

theorem lookup_assocSet_ne {β : Type} (d : List (String × β)) (k k' : String) (v : β)
    (h : k' ≠ k) : List.lookup k' (assocSet d k v) = List.lookup k' d := by
  induction d with
  | nil =>
    have : (k' == k) = false := by simp [beq_iff_eq, h]
    simp [assocSet, List.lookup, this]
  | cons kv rest ih =>
    obtain ⟨k0, v0⟩ := kv
    by_cases h0 : k0 = k
    · subst h0
      simp only [assocSet, if_pos rfl, List.lookup]
      have : (k' == k0) = false := by simp [beq_iff_eq, h]
      simp [this]
    · simp only [assocSet, if_neg h0, List.lookup]
      by_cases hk : k' = k0
      · simp [hk]
      · have : (k' == k0) = false := by simp [beq_iff_eq, hk]
        simp [this, ih]

theorem dictGet?_assocSet_self (d : Dict) (k : String) (v : Value) :
    dictGet? (assocSet d k v) k = some v :=
  lookup_assocSet_self d k v

theorem dictGet?_assocSet_ne (d : Dict) (k k' : String) (v : Value) (h : k' ≠ k) :
    dictGet? (assocSet d k v) k' = dictGet? d k' :=
  lookup_assocSet_ne d k k' v h

theorem lookup_isSome_iff {β : Type} (s : List (String × β)) (k : String) :
    (List.lookup k s).isSome ↔ k ∈ s.map Prod.fst := by
  induction s with
  | nil => simp [List.lookup]
  | cons kv rest ih =>
    obtain ⟨k0, v0⟩ := kv
    by_cases h : k = k0
    · simp [List.lookup, h]
    · have : (k == k0) = false := by simp [beq_iff_eq, h]
      simp [List.lookup, this, ih, h]

theorem mem_keys_of_lookup {β : Type} {s : List (String × β)} {k : String} {v : β}
    (h : List.lookup k s = some v) : k ∈ s.map Prod.fst := by
  have := (lookup_isSome_iff s k).mp (by simp [h])
  exact this

theorem lookup_mem {β : Type} {s : List (String × β)} {k : String} {v : β}
    (h : List.lookup k s = some v) : (k, v) ∈ s := by
  induction s with
  | nil => simp [List.lookup] at h
  | cons kv rest ih =>
    obtain ⟨k0, v0⟩ := kv
    by_cases hk : k = k0
    · subst hk
      simp [List.lookup] at h
      simp [h]
    · have hb : (k == k0) = false := by simp [beq_iff_eq, hk]
      simp only [List.lookup, hb, cond_false] at h
      exact List.mem_cons_of_mem _ (ih h)

theorem nodup_lookup {β : Type} {s : List (String × β)}
    (hnd : (s.map Prod.fst).Nodup) {kv : String × β} (hkv : kv ∈ s) :
    List.lookup kv.1 s = some kv.2 := by
  induction s with
  | nil => simp at hkv
  | cons hd rest ih =>
    obtain ⟨k0, v0⟩ := hd
    simp only [List.map_cons, List.nodup_cons] at hnd
    rcases List.mem_cons.mp hkv with h | h
    · subst h
      simp [List.lookup]
    · have hne : kv.1 ≠ k0 := by
        intro he
        exact hnd.1 (he ▸ List.mem_map_of_mem Prod.fst h)
      have hb : (kv.1 == k0) = false := by simp [beq_iff_eq, hne]
      simp only [List.lookup, hb, cond_false]
      exact ih hnd.2 h

theorem mem_updatedPaths_iff (saved current : Snapshot) (k : String) :
    k ∈ updatedPaths saved current ↔
      ∃ v1, (k, v1) ∈ current ∧ ∃ v0, List.lookup k saved = some v0 ∧
        dictGet? v1 "modified" ≠ dictGet? v0 "modified" := by
  unfold updatedPaths
  rw [List.mem_filterMap]
  constructor
  · rintro ⟨⟨k1, v1⟩, hmem, heq⟩
    rcases hlk : List.lookup k1 saved with _ | v0
    · rw [hlk] at heq; simp at heq
    · rw [hlk] at heq
      dsimp only at heq
      by_cases hne : dictGet? v1 "modified" ≠ dictGet? v0 "modified"
      · rw [if_pos hne] at heq
        obtain rfl : k1 = k := by simpa using heq
        exact ⟨v1, hmem, v0, hlk, hne⟩
      · rw [if_neg hne] at heq; simp at heq
  · rintro ⟨v1, hmem, v0, hlk, hne⟩
    refine ⟨(k, v1), hmem, ?_⟩
    rw [hlk]
    dsimp only
    rw [if_pos hne]

theorem mem_createdPaths_iff (saved current : Snapshot) (k : String) :
    k ∈ createdPaths saved current ↔ k ∈ snapKeys current ∧ k ∉ snapKeys saved := by
  simp [createdPaths, List.mem_filter]

theorem mem_removedPaths_iff (saved current : Snapshot) (k : String) :
    k ∈ removedPaths saved current ↔ k ∈ snapKeys saved ∧ k ∉ snapKeys current := by
  simp [removedPaths, List.mem_filter]

theorem diffRoot_cases (saved current : Snapshot) (ev : Dict)
    (h : ev ∈ diffRoot saved current) :
    (∃ k v, k ∈ updatedPaths saved current ∧ List.lookup k current = some v ∧
        ev = assocSet v "change" (.str "updated")) ∨
    (∃ k v, k ∈ createdPaths saved current ∧ List.lookup k current = some v ∧
        ev = assocSet v "change" (.str "created")) ∨
    (∃ k v, k ∈ removedPaths saved current ∧ List.lookup k saved = some v ∧
        ev = assocSet v "change" (.str "removed")) := by
  simp only [diffRoot, List.mem_append, List.mem_filterMap, Option.map_eq_some'] at h
  rcases h with (⟨k, hk, v, hv, hev⟩ | ⟨k, hk, v, hv, hev⟩) | ⟨k, hk, v, hv, hev⟩
  · exact Or.inl ⟨k, v, hk, hv, hev.symm⟩
  · exact Or.inr (Or.inl ⟨k, v, hk, hv, hev.symm⟩)
  · exact Or.inr (Or.inr ⟨k, v, hk, hv, hev.symm⟩)

theorem WFRecord_event_facts {d : Dict} (h : WFRecord d) (v : Value) :
    (assocSet d "change" v).map Prod.fst = ["abspath", "modified", "size", "change"] ∧
    dictGet? (assocSet d "change" v) "timestamp" = none ∧
    dictGet? (assocSet d "change" v) "change" = some v ∧
    dictGet? (assocSet d "change" v) "abspath" = dictGet? d "abspath" ∧
    dictGet? (assocSet d "change" v) "modified" = dictGet? d "modified" := by
  obtain ⟨a, m, s, rfl⟩ := h
  refine ⟨by simp [assocSet], ?_, ?_, ?_, ?_⟩ <;> simp [assocSet, dictGet?, List.lookup]

theorem diffAll_mem (states : List (Snapshot × Snapshot)) (ev : Dict)
    (h : ev ∈ diffAll states) :
    ∃ p ∈ states, ev ∈ diffRoot p.1 p.2 := by
  simp only [diffAll, List.mem_flatten, List.mem_map] at h
  rcases h with ⟨l, ⟨p, hp, rfl⟩, hev⟩
  exact ⟨p, hp, hev⟩

theorem diffAll_WF_shape (states : List (Snapshot × Snapshot))
    (hWF : ∀ p ∈ states, WFSnapshot p.1 ∧ WFSnapshot p.2) (ev : Dict)
    (h : ev ∈ diffAll states) :
    ∃ d kind, WFRecord d ∧ ev = assocSet d "change" (.str kind) := by
  obtain ⟨p, hp, hev⟩ := diffAll_mem states ev h
  obtain ⟨hWFs, hWFc⟩ := hWF p hp
  rcases diffRoot_cases p.1 p.2 ev hev with
    ⟨k, v, _, hlk, rfl⟩ | ⟨k, v, _, hlk, rfl⟩ | ⟨k, v, _, hlk, rfl⟩
  · exact ⟨v, "updated", hWFc _ (lookup_mem hlk), rfl⟩
  · exact ⟨v, "created", hWFc _ (lookup_mem hlk), rfl⟩
  · exact ⟨v, "removed", hWFs _ (lookup_mem hlk), rfl⟩

theorem pushHistory_length_le (n : Nat) (changes : List Dict) (now : Nat) :
    ∀ hist : List Dict, hist.length ≤ n →
      (pushHistory n hist changes now).length ≤ n := by
  induction changes with
  | nil => intro hist h; simpa [pushHistory] using h
  | cons c cs ih =>
    intro hist h
    rw [pushHistory, List.foldl_cons]
    apply ih
    dsimp only
    split
    · rename_i hlt
      simp only [List.length_tail, List.length_append, List.length_singleton] at *
      omega
    · rename_i hle
      simp only [List.length_append, List.length_singleton] at *
      omega

theorem pushHistory_mem (n : Nat) (changes : List Dict) (now : Nat) :
    ∀ (hist : List Dict) (d : Dict), d ∈ pushHistory n hist changes now →
      d ∈ hist ∨ ∃ c ∈ changes, d = assocSet c "timestamp" (.time now) := by
  induction changes with
  | nil =>
    intro hist d h
    simp only [pushHistory, List.foldl_nil] at h
    exact Or.inl h
  | cons c cs ih =>
    intro hist d h
    rw [pushHistory, List.foldl_cons] at h
    rcases ih _ d h with h2 | ⟨c2, hc2, rfl⟩
    · dsimp only at h2
      have h3 : d ∈ hist ++ [assocSet c "timestamp" (.time now)] := by
        split at h2
        · exact List.mem_of_mem_tail h2
        · exact h2
      rcases List.mem_append.mp h3 with h4 | h4
      · exact Or.inl h4
      · right
        exact ⟨c, List.mem_cons_self c cs, List.mem_singleton.mp h4⟩
    · exact Or.inr ⟨c2, List.mem_cons_of_mem c hc2, rfl⟩

theorem three_counts_le (l : List Dict) :
    l.countP (fun c => decide (dictGet? c "change" = some (.str "created"))) +
    l.countP (fun c => decide (dictGet? c "change" = some (.str "updated"))) +
    l.countP (fun c => decide (dictGet? c "change" = some (.str "removed"))) ≤
      l.length := by
  induction l with
  | nil => simp
  | cons x t ih =>
    simp only [List.countP_cons, List.length_cons]
    by_cases h1 : dictGet? x "change" = some (.str "created") <;>
      by_cases h2 : dictGet? x "change" = some (.str "updated") <;>
      by_cases h3 : dictGet? x "change" = some (.str "removed") <;>
      simp_all <;> omega

theorem statsSum_le_length (hist : List Dict) : statsSum hist ≤ hist.length := by
  unfold statsSum getStats
  split
  · simp
  · simp only [List.map_cons, List.map_nil, List.sum_cons, List.sum_nil]
    have := three_counts_le hist
    omega

theorem isPrefixOf_self_char (l : List Char) : l.isPrefixOf l = true := by
  induction l with
  | nil => rfl
  | cons c rest ih => simp [List.isPrefixOf, ih]

theorem pyRemoveAux_nil (pat : List Char) (fuel : Nat) :
    pyRemoveAux pat fuel [] = [] := by
  cases fuel <;> rfl

theorem pyRemoveAux_self (l : List Char) : pyRemoveAux l l.length l = [] := by
  cases l with
  | nil => rfl
  | cons c rest =>
    rw [List.length_cons, pyRemoveAux]
    rw [if_pos (by simp [isPrefixOf_self_char])]
    simp only [List.length_cons, Nat.add_sub_cancel, List.drop_length]
    exact pyRemoveAux_nil _ _

theorem pyReplaceEmpty_self (s : String) : pyReplaceEmpty s s = "" := by
  unfold pyReplaceEmpty
  rw [pyRemoveAux_self]

theorem walkDepth_self (p : String) : walkDepth p p = 0 := by
  unfold walkDepth
  rw [pyReplaceEmpty_self]
  rfl

theorem depthExceeded_self (cfg : WatchConfig) (p : String) :
    depthExceeded cfg (walkDepth p p) = false := by
  rw [walkDepth_self]
  unfold depthExceeded
  cases cfg.max_depth with
  | none => rfl
  | some m => simp

theorem walkFiles_error (cfg : WatchConfig) (stat : String → Option StatResult)
    (dirPath : String) (f : String) :
    ∀ (files : List String) (acc : Snapshot), f ∈ files →
      shouldWatch cfg (pathJoin dirPath f) = true →
      stat (pathJoin dirPath f) = none →
      walkFiles cfg stat dirPath files acc = .error () := by
  intro files
  induction files with
  | nil => intro acc h _ _; exact absurd h (List.not_mem_nil f)
  | cons g rest ih =>
    intro acc hf hw hs
    rcases List.mem_cons.mp hf with rfl | hf2
    · simp [walkFiles, hw, getMetadata, hs]
    · by_cases hwg : shouldWatch cfg (pathJoin dirPath g) = true
      · rcases hmd : getMetadata stat (pathJoin dirPath g) with e | md
        · obtain rfl : e = () := rfl
          simp [walkFiles, hwg, hmd]
        · simp only [walkFiles, hwg, if_true, hmd]
          exact ih _ hf2 hw hs
      · have hwg2 : shouldWatch cfg (pathJoin dirPath g) = false :=
          Bool.eq_false_iff.mpr hwg
        simp only [walkFiles, hwg2, Bool.false_eq_true, if_false]
        exact ih _ hf2 hw hs

theorem mem_updatedPaths_nodup_iff (saved current : Snapshot)
    (hndc : (snapKeys current).Nodup) (k : String) :
    k ∈ updatedPaths saved current ↔
      (k ∈ snapKeys saved ∧ k ∈ snapKeys current ∧
        modifiedOf saved k ≠ modifiedOf current k) := by
  rw [mem_updatedPaths_iff]
  constructor
  · rintro ⟨v1, hv1, v0, hl0, hne⟩
    have hlc : List.lookup k current = some v1 := nodup_lookup hndc hv1
    refine ⟨mem_keys_of_lookup hl0, mem_keys_of_lookup hlc, ?_⟩
    unfold modifiedOf
    rw [hl0, hlc]
    exact Ne.symm hne
  · rintro ⟨hks, hkc, hne⟩
    obtain ⟨v1, hv1⟩ := Option.isSome_iff_exists.mp ((lookup_isSome_iff current k).mpr hkc)
    obtain ⟨v0, hv0⟩ := Option.isSome_iff_exists.mp ((lookup_isSome_iff saved k).mpr hks)
    refine ⟨v1, lookup_mem hv1, v0, hv0, ?_⟩
    unfold modifiedOf at hne
    rw [hv0, hv1] at hne
    exact Ne.symm hne

/-! Claim theorems. -/

/-- C1, counterexample: with root `/r` holding `a.txt` (stat succeeds) and
`b.txt` (stat raises), the capture does not complete with `b.txt` omitted —
it aborts with the propagated error, so the snapshot holding only `a.txt` is
not produced. -/
theorem C1_counterexample :
    getState cfgPlain statFailB "/r" ["a.txt", "b.txt"] Forest.nil =
      Except.error () ∧
    getState cfgPlain statFailB "/r" ["a.txt", "b.txt"] Forest.nil ≠
      Except.ok [("/r/a.txt", mdRec "/r/a.txt" 1 1)] :=
  ⟨rfl, fun h => Except.noConfusion h⟩

/-- C1, amended: `__get_metadata__` and `__get_state__` contain no exception
handler, so when `os.stat` fails for any candidate file of the root directory
the whole capture aborts with the propagated error; no file is silently
skipped. -/
theorem C1_stat_failure_aborts (cfg : WatchConfig)
    (stat : String → Option StatResult) (root : String)
    (rootFiles : List String) (children : Forest) (f : String)
    (hf : f ∈ rootFiles)
    (hw : shouldWatch cfg (pathJoin root f) = true)
    (hs : stat (pathJoin root f) = none) :
    getState cfg stat root rootFiles children = Except.error () := by
  unfold getState
  rw [depthExceeded_self]
  simp only [Bool.false_eq_true, if_false]
  rw [walkFiles_error cfg stat root f rootFiles [] hf hw hs]

/-- C1, witness for the amended theorem at the concrete two-file root. -/
theorem C1_witness :
    ("b.txt" ∈ ["a.txt", "b.txt"]) ∧
    shouldWatch cfgPlain (pathJoin "/r" "b.txt") = true ∧
    statFailB (pathJoin "/r" "b.txt") = none ∧
    getState cfgPlain statFailB "/r" ["a.txt", "b.txt"] Forest.nil =
      Except.error () :=
  ⟨by decide, by decide, by decide,
    C1_stat_failure_aborts cfgPlain statFailB "/r" ["a.txt", "b.txt"]
      Forest.nil "b.txt" (by decide) (by decide) (by decide)⟩

/-- C2, counterexample: in the one-file update scenario the single event put
on the event queue (and passed to callbacks) is the `diff` return dict, which
carries no `timestamp` key at all, let alone the diff call's wall-clock
time. -/
theorem C2_counterexample :
    queuedEvents (diffAll [(savedW, currentW)]) = [updEventW] ∧
    dictGet? updEventW "timestamp" = none :=
  ⟨rfl, rfl⟩

/-- C2, amended: the wall-clock timestamp is attached only to the separate
copies appended to `change_history`; within one diff call every appended copy
carries that call's single `now` value, while the events returned by `diff`
(the ones enqueued and passed to callbacks) carry no `timestamp` key. -/
theorem C2_timestamp_only_in_history (states : List (Snapshot × Snapshot))
    (history_size : Nat) (hist : List Dict) (now : Nat)
    (hWF : ∀ p ∈ states, WFSnapshot p.1 ∧ WFSnapshot p.2) :
    (∀ c ∈ queuedEvents (diffAll states), dictGet? c "timestamp" = none) ∧
    (∀ d ∈ (diffCall history_size states hist now).2,
      d ∈ hist ∨ ∃ c ∈ diffAll states, d = assocSet c "timestamp" (.time now)) ∧
    (∀ d ∈ (diffCall history_size states [] now).2,
      dictGet? d "timestamp" = some (.time now)) := by
  refine ⟨?_, ?_, ?_⟩
  · intro c hc
    obtain ⟨d, kind, hWFd, rfl⟩ := diffAll_WF_shape states hWF c hc
    exact (WFRecord_event_facts hWFd _).2.1
  · intro d hd
    exact pushHistory_mem history_size (diffAll states) now hist d hd
  · intro d hd
    rcases pushHistory_mem history_size (diffAll states) now [] d hd with
      h | ⟨c, _, rfl⟩
    · exact absurd h (List.not_mem_nil d)
    · exact dictGet?_assocSet_self _ _ _

/-- C2, witness for the amended theorem at the one-file update scenario. -/
theorem C2_witness : dictGet? updEventW "timestamp" = none :=
  (C2_timestamp_only_in_history [(savedW, currentW)] 100 [] 7 WF_pairW).1
    updEventW (by decide)

/-- C3: every change dict returned by `diff` — hence every dict enqueued and
passed to callbacks by the monitor loop — has exactly the keys
`abspath, modified, size, change`, in particular no `timestamp` key, so the
`change['timestamp']` read in `get_changes` is a missing-key lookup. -/
theorem C3_queue_events_lack_timestamp (states : List (Snapshot × Snapshot))
    (hWF : ∀ p ∈ states, WFSnapshot p.1 ∧ WFSnapshot p.2) :
    ∀ c ∈ queuedEvents (diffAll states),
      c.map Prod.fst = ["abspath", "modified", "size", "change"] ∧
      dictGet? c "timestamp" = none ∧
      getChangesLine c = none := by
  intro c hc
  obtain ⟨d, kind, hWFd, rfl⟩ := diffAll_WF_shape states hWF c hc
  obtain ⟨hkeys, hts, -, -, -⟩ := WFRecord_event_facts hWFd (.str kind)
  refine ⟨hkeys, hts, ?_⟩
  unfold getChangesLine
  rw [hts]

/-- C3, witness at the one-file update scenario. -/
theorem C3_witness :
    updEventW.map Prod.fst = ["abspath", "modified", "size", "change"] ∧
    dictGet? updEventW "timestamp" = none ∧
    getChangesLine updEventW = none :=
  C3_queue_events_lack_timestamp [(savedW, currentW)] WF_pairW
    updEventW (by decide)

/-- C4: for snapshots (whose keys, being Python dict keys, are distinct), the
updated, created and removed path sets of one diff call are pairwise
disjoint, and their union is the symmetric difference of the key sets
together with the intersection keys whose modified time differs. -/
theorem C4_partition (saved current : Snapshot)
    (hnds : (snapKeys saved).Nodup) (hndc : (snapKeys current).Nodup) :
    ((∀ k ∈ updatedPaths saved current, k ∉ createdPaths saved current) ∧
     (∀ k ∈ updatedPaths saved current, k ∉ removedPaths saved current) ∧
     (∀ k ∈ createdPaths saved current, k ∉ removedPaths saved current)) ∧
    (∀ k, (k ∈ updatedPaths saved current ∨ k ∈ createdPaths saved current ∨
            k ∈ removedPaths saved current) ↔
          ((k ∈ snapKeys current ∧ k ∉ snapKeys saved) ∨
           (k ∈ snapKeys saved ∧ k ∉ snapKeys current) ∨
           (k ∈ snapKeys saved ∧ k ∈ snapKeys current ∧
             modifiedOf saved k ≠ modifiedOf current k))) := by
  refine ⟨⟨?_, ?_, ?_⟩, ?_⟩
  · intro k hk hk2
    rw [mem_updatedPaths_nodup_iff saved current hndc] at hk
    rw [mem_createdPaths_iff] at hk2
    exact hk2.2 hk.1
  · intro k hk hk2
    rw [mem_updatedPaths_nodup_iff saved current hndc] at hk
    rw [mem_removedPaths_iff] at hk2
    exact hk2.2 hk.2.1
  · intro k hk hk2
    rw [mem_createdPaths_iff] at hk
    rw [mem_removedPaths_iff] at hk2
    exact hk.2 hk2.1
  · intro k
    rw [mem_updatedPaths_nodup_iff saved current hndc, mem_createdPaths_iff,
      mem_removedPaths_iff]
    tauto

/-- C4, witness at the one-file update scenario. -/
theorem C4_witness :
    ("/w/a.txt" ∈ updatedPaths savedW currentW ∨
      "/w/a.txt" ∈ createdPaths savedW currentW ∨
      "/w/a.txt" ∈ removedPaths savedW currentW) ↔
    (("/w/a.txt" ∈ snapKeys currentW ∧ "/w/a.txt" ∉ snapKeys savedW) ∨
     ("/w/a.txt" ∈ snapKeys savedW ∧ "/w/a.txt" ∉ snapKeys currentW) ∨
     ("/w/a.txt" ∈ snapKeys savedW ∧ "/w/a.txt" ∈ snapKeys currentW ∧
       modifiedOf savedW "/w/a.txt" ≠ modifiedOf currentW "/w/a.txt")) :=
  (C4_partition savedW currentW (by decide) (by decide)).2 "/w/a.txt"

/-- C5: for a path present in both snapshots, an updated event is emitted
exactly when the two `modified` values differ (the `size` field plays no
role), in which case no created or removed event is emitted for it, and the
emitted event carries the current record tagged `"updated"`. -/
theorem C5_updated_iff_modified (saved current : Snapshot) (k : String)
    (hndc : (snapKeys current).Nodup)
    (hks : k ∈ snapKeys saved) (hkc : k ∈ snapKeys current) :
    (k ∈ updatedPaths saved current ↔
      modifiedOf saved k ≠ modifiedOf current k) ∧
    (modifiedOf saved k = modifiedOf current k →
      k ∉ updatedPaths saved current ∧ k ∉ createdPaths saved current ∧
      k ∉ removedPaths saved current) ∧
    (∀ v1, List.lookup k current = some v1 → k ∈ updatedPaths saved current →
      assocSet v1 "change" (.str "updated") ∈ diffRoot saved current) := by
  refine ⟨?_, ?_, ?_⟩
  · rw [mem_updatedPaths_nodup_iff saved current hndc]
    constructor
    · rintro ⟨-, -, h⟩; exact h
    · intro h; exact ⟨hks, hkc, h⟩
  · intro heq
    refine ⟨?_, ?_, ?_⟩
    · rw [mem_updatedPaths_nodup_iff saved current hndc]
      rintro ⟨-, -, h⟩; exact h heq
    · rw [mem_createdPaths_iff]
      rintro ⟨-, h⟩; exact h hks
    · rw [mem_removedPaths_iff]
      rintro ⟨-, h⟩; exact h hkc
  · intro v1 hv1 hupd
    have hmem : assocSet v1 "change" (.str "updated") ∈
        (updatedPaths saved current).filterMap fun x =>
          (List.lookup x current).map fun d => assocSet d "change" (.str "updated") :=
      List.mem_filterMap.mpr ⟨k, hupd, by rw [hv1]; rfl⟩
    unfold diffRoot
    exact List.mem_append.mpr (Or.inl (List.mem_append.mpr (Or.inl hmem)))

/-- C5, witness at the one-file update scenario. -/
theorem C5_witness :
    "/w/a.txt" ∈ updatedPaths savedW currentW ↔
      modifiedOf savedW "/w/a.txt" ≠ modifiedOf currentW "/w/a.txt" :=
  (C5_updated_iff_modified savedW currentW "/w/a.txt" (by decide) (by decide)
    (by decide)).1

/-- C6: every removed event carries the record looked up in the previous
snapshot, every created or updated event the record looked up in the current
snapshot; and in scenario C (previous `old.txt` with modify time 10, current
empty) the diff is exactly one removed event for `old.txt` carrying modify
time 10 from the previous snapshot. -/
theorem C6_event_metadata (saved current : Snapshot) :
    (∀ ev ∈ diffRoot saved current,
      (dictGet? ev "change" = some (.str "removed") →
        ∃ k d, k ∈ removedPaths saved current ∧
          List.lookup k saved = some d ∧
          ev = assocSet d "change" (.str "removed")) ∧
      (dictGet? ev "change" = some (.str "created") →
        ∃ k d, k ∈ createdPaths saved current ∧
          List.lookup k current = some d ∧
          ev = assocSet d "change" (.str "created")) ∧
      (dictGet? ev "change" = some (.str "updated") →
        ∃ k d, k ∈ updatedPaths saved current ∧
          List.lookup k current = some d ∧
          ev = assocSet d "change" (.str "updated"))) ∧
    (diffRoot snapC6 [] = [assocSet (mdRec "old.txt" 10 5) "change" (.str "removed")] ∧
     dictGet? (assocSet (mdRec "old.txt" 10 5) "change" (.str "removed")) "abspath" =
       some (.str "old.txt") ∧
     dictGet? (assocSet (mdRec "old.txt" 10 5) "change" (.str "removed")) "modified" =
       some (.int 10)) := by
  constructor
  · intro ev hev
    rcases diffRoot_cases saved current ev hev with
      ⟨k, v, hk, hl, rfl⟩ | ⟨k, v, hk, hl, rfl⟩ | ⟨k, v, hk, hl, rfl⟩
    · refine ⟨?_, ?_, ?_⟩
      · intro h; rw [dictGet?_assocSet_self] at h; exact absurd h (by decide)
      · intro h; rw [dictGet?_assocSet_self] at h; exact absurd h (by decide)
      · intro _; exact ⟨k, v, hk, hl, rfl⟩
    · refine ⟨?_, ?_, ?_⟩
      · intro h; rw [dictGet?_assocSet_self] at h; exact absurd h (by decide)
      · intro _; exact ⟨k, v, hk, hl, rfl⟩
      · intro h; rw [dictGet?_assocSet_self] at h; exact absurd h (by decide)
    · refine ⟨?_, ?_, ?_⟩
      · intro _; exact ⟨k, v, hk, hl, rfl⟩
      · intro h; rw [dictGet?_assocSet_self] at h; exact absurd h (by decide)
      · intro h; rw [dictGet?_assocSet_self] at h; exact absurd h (by decide)
  · exact ⟨rfl, rfl, rfl⟩

/-- C6, witness: the scenario C event, run through the general part of the
theorem, yields its previous-snapshot record. -/
theorem C6_witness :
    ∃ k d, k ∈ removedPaths snapC6 [] ∧ List.lookup k snapC6 = some d ∧
      assocSet (mdRec "old.txt" 10 5) "change" (Value.str "removed") =
        assocSet d "change" (.str "removed") :=
  ((C6_event_metadata snapC6 []).1
    (assocSet (mdRec "old.txt" 10 5) "change" (.str "removed")) (by decide)).1
    (by decide)

/-- C7, counterexample: the depth computation
`root_dir.replace(path, '').count(os.sep)` removes every occurrence of the
root string, so with root `/a` and directory `ab` the path `/a/ab/c` gets
computed depth 1, and `deep.txt` — which lies in a directory two levels
below the root — survives a capture with `max_depth = 1`. -/
theorem C7_counterexample :
    getState cfgDepth1 statOne "/a" [] forestBad =
      Except.ok [("/a/ab/c/deep.txt", mdRec "/a/ab/c/deep.txt" 1 1)] ∧
    walkDepth "/a" "/a/ab/c" = 1 :=
  ⟨rfl, rfl⟩

/-- C7, amended: directory depth is computed by deleting every occurrence of
the root path string from the directory's full path and counting the
remaining separators (this equals the depth relative to the root only when
the root string does not reoccur); a directory whose computed depth exceeds
`max_depth` contributes neither its files nor its descendants, and in the
clean-named scenario `root/x/y/z/deep.txt` with `max_depth = 1` the capture
holds the root file and `x/b.txt` but not `deep.txt`. -/
theorem C7_depth_pruning :
    (∀ (cfg : WatchConfig) (stat : String → Option StatResult)
        (rootPath parentPath name : String) (files : List String)
        (children rest : Forest) (acc : Snapshot),
      depthExceeded cfg (walkDepth rootPath (pathJoin parentPath name)) = true →
      walkForest cfg stat rootPath parentPath
          (.dir name files children rest) acc =
        walkForest cfg stat rootPath parentPath rest acc) ∧
    getState cfgDepth1 statOne "/r" ["a.txt"] forest7 =
      Except.ok [("/r/a.txt", mdRec "/r/a.txt" 1 1),
                 ("/r/x/b.txt", mdRec "/r/x/b.txt" 1 1)] := by
  constructor
  · intro cfg stat rootPath parentPath name files children rest acc h
    simp [walkForest, h]
  · rfl

/-- C7, witness for the pruning half at the depth-2 directory `y` of the
scenario. -/
theorem C7_witness :
    walkForest cfgDepth1 statOne "/r" "/r/x"
        (Forest.dir "y" [] (Forest.dir "z" ["deep.txt"] .nil .nil) .nil) [] =
      walkForest cfgDepth1 statOne "/r" "/r/x" Forest.nil [] :=
  C7_depth_pruning.1 cfgDepth1 statOne "/r" "/r/x" "y" []
    (Forest.dir "z" ["deep.txt"] .nil .nil) .nil [] (by decide)

/-- C8, counterexample: for the base name `.txt` the text after the last dot
is `txt`, which is in the allowed set, yet `__should_watch__` rejects the
file, because `os.path.splitext` gives dot-files an empty extension. -/
theorem C8_counterexample :
    claimExtAfterLastDot (pyBasename "/r/.txt") = some "txt" ∧
    cfgTxt.ignore_patterns = [] ∧
    "txt" ∈ cfgTxt.file_extensions ∧
    shouldWatch cfgTxt "/r/.txt" = false :=
  ⟨rfl, rfl, by decide, rfl⟩

/-- C8, amended: a file passes the filter exactly when no ignore pattern is a
substring of its base name and (when the allow-list is non-empty) its
`os.path.splitext` extension without the leading dot is allowed — for a base
name whose only dots are leading, that extension is empty; the scenario with
`a.txt`, `b.log`, `.DS_Store` still yields only `a.txt`. -/
theorem C8_filter_rule :
    (∀ (cfg : WatchConfig) (p : String),
      shouldWatch cfg p = true ↔
        ((∀ pat ∈ cfg.ignore_patterns, pyIn pat (pyBasename p) = false) ∧
         (cfg.file_extensions = [] ∨ extOf p ∈ cfg.file_extensions))) ∧
    getState cfgP4 statOne "/r" ["a.txt", "b.log", ".DS_Store"] Forest.nil =
      Except.ok [("/r/a.txt", mdRec "/r/a.txt" 1 1)] := by
  constructor
  · intro cfg p
    cases ha : cfg.ignore_patterns.any (fun pat => pyIn pat (pyBasename p)) with
    | true =>
      have hw : shouldWatch cfg p = false := by
        simp only [shouldWatch]
        rw [ha]
        simp
      rw [hw]
      simp only [Bool.false_eq_true, false_iff]
      rintro ⟨hall, -⟩
      obtain ⟨pat, hpat, hin⟩ := List.any_eq_true.mp ha
      rw [hall pat hpat] at hin
      exact absurd hin (by decide)
    | false =>
      have hall : ∀ pat ∈ cfg.ignore_patterns, pyIn pat (pyBasename p) = false := by
        intro pat hpat
        cases hpi : pyIn pat (pyBasename p) with
        | false => rfl
        | true =>
          have : cfg.ignore_patterns.any (fun pat => pyIn pat (pyBasename p)) = true :=
            List.any_eq_true.mpr ⟨pat, hpat, hpi⟩
          rw [ha] at this
          exact absurd this (by decide)
      cases hi : cfg.file_extensions.isEmpty with
      | true =>
        have hw : shouldWatch cfg p = true := by
          simp only [shouldWatch]
          rw [ha, hi]
          simp
        rw [hw]
        simp only [true_iff]
        exact ⟨hall, Or.inl (List.isEmpty_iff.mp hi)⟩
      | false =>
        cases hc : cfg.file_extensions.contains (extOf p) with
        | true =>
          have hw : shouldWatch cfg p = true := by
            simp only [shouldWatch]
            rw [ha, hi, hc]
            simp
          rw [hw]
          simp only [true_iff]
          exact ⟨hall, Or.inr (by simpa using hc)⟩
        | false =>
          have hw : shouldWatch cfg p = false := by
            simp only [shouldWatch]
            rw [ha, hi, hc]
            simp
          rw [hw]
          simp only [Bool.false_eq_true, false_iff]
          rintro ⟨-, hext⟩
          rcases hext with hnil | hmem
          · rw [hnil] at hi
            exact absurd hi (by decide)
          · have htrue : cfg.file_extensions.contains (extOf p) = true := by
              simpa using hmem
            rw [hc] at htrue
            exact absurd htrue (by decide)
  · rfl

/-- C8, witness: `a.txt` passes the scenario filter via the amended rule. -/
theorem C8_witness : shouldWatch cfgP4 "/r/a.txt" = true :=
  (C8_filter_rule.1 cfgP4 "/r/a.txt").mpr ⟨by decide, Or.inr (by decide)⟩

/-- C9: the change history is a FIFO-bounded buffer — starting from an empty
history, after any sequence of diff cycles its length never exceeds
`history_size`, the `get_stats` counts sum to at most `history_size`, and
every retained entry is a timestamp-tagged copy of an event of one of the
cycles. -/
theorem C9_history_bounded (history_size : Nat)
    (cycles : List (List Dict × Nat)) :
    (runHistory history_size cycles).length ≤ history_size ∧
    statsSum (runHistory history_size cycles) ≤ history_size ∧
    (∀ d ∈ runHistory history_size cycles,
      ∃ cyc ∈ cycles, ∃ c ∈ cyc.1,
        d = assocSet c "timestamp" (.time cyc.2)) := by
  have hlen : ∀ (cys : List (List Dict × Nat)) (h0 : List Dict),
      h0.length ≤ history_size →
      (cys.foldl (fun h cyc => pushHistory history_size h cyc.1 cyc.2)
          h0).length ≤ history_size := by
    intro cys
    induction cys with
    | nil => intro h0 h; simpa using h
    | cons cy cys ih =>
      intro h0 h
      rw [List.foldl_cons]
      exact ih _ (pushHistory_length_le _ _ _ _ h)
  have hmem : ∀ (cys : List (List Dict × Nat)) (h0 : List Dict) (d : Dict),
      d ∈ cys.foldl (fun h cyc => pushHistory history_size h cyc.1 cyc.2) h0 →
      d ∈ h0 ∨ ∃ cyc ∈ cys, ∃ c ∈ cyc.1,
        d = assocSet c "timestamp" (.time cyc.2) := by
    intro cys
    induction cys with
    | nil => intro h0 d h; exact Or.inl (by simpa using h)
    | cons cy cys ih =>
      intro h0 d h
      rw [List.foldl_cons] at h
      rcases ih _ d h with h2 | ⟨cyc, hcyc, c, hc, rfl⟩
      · rcases pushHistory_mem _ _ _ _ _ h2 with h3 | ⟨c, hc, rfl⟩
        · exact Or.inl h3
        · exact Or.inr ⟨cy, List.mem_cons_self _ _, c, hc, rfl⟩
      · exact Or.inr ⟨cyc, List.mem_cons_of_mem _ hcyc, c, hc, rfl⟩
  refine ⟨hlen cycles [] (by simp), ?_, ?_⟩
  · exact le_trans (statsSum_le_length _) (hlen cycles [] (by simp))
  · intro d hd
    rcases hmem cycles [] d hd with h | h
    · exact absurd h (List.not_mem_nil d)
    · exact h

/-- C9, witness: the single retained entry of a one-cycle run is the tagged
copy of that cycle's event. -/
theorem C9_witness :
    ∃ cyc ∈ [([mdRec "/w/q.txt" 1 1], (7 : Nat))], ∃ c ∈ cyc.1,
      assocSet (mdRec "/w/q.txt" 1 1) "timestamp" (Value.time 7) =
        assocSet c "timestamp" (Value.time cyc.2) :=
  (C9_history_bounded 1 [([mdRec "/w/q.txt" 1 1], 7)]).2.2
    (assocSet (mdRec "/w/q.txt" 1 1) "timestamp" (Value.time 7)) (by decide)

/-- C10: the created set of `diff(S1, S2)` is (definitionally) the removed
set of `diff(S2, S1)`, and vice versa, for any two snapshots. -/
theorem C10_created_removed_symmetry (S1 S2 : Snapshot) :
    createdPaths S1 S2 = removedPaths S2 S1 ∧
    removedPaths S1 S2 = createdPaths S2 S1 :=
  ⟨rfl, rfl⟩

end FileSystemPro
